import Mathlib

/-!
Verification of the velora validator against its specification.

The development shallowly embeds the two source files:
  - `db/db_manager.py` (Task Ledger / Result Archive): tables are Lean lists
    of rows in insertion order; SQL inserts append, updates map over rows.
    Dates are modelled as integers counting days, so `timedelta(days=1)`
    is `+ 1`.
  - `src/subnet/validator/validator.py` (round orchestrator, consensus,
    verifier, scorer): the per-round pipeline is a pure function from the
    collected answers (nulls included) to an optional vote, with Python
    exceptions modelled as `Except String`.  Python `float` scores are
    modelled as `ℚ`; `int()` on a quotient is truncation toward zero.
    The iteration order of the Python `set` used by the consensus step is
    an implementation artifact, so it is passed as an explicit parameter
    constrained to enumerate exactly the distinct fingerprints.
-/

/-- Row of the `timetable` table (`db_manager.py`, class `Timetable`).
The source column `end` is a Lean keyword and is rendered `stop`. -/
structure TimetableRow where
  start : Int
  stop : Int
  completed : Bool
deriving DecidableEq, Repr

/-- Row of a per-window `token_pairs_{start}_{end}` table
(`token_pairs_table_columns`), tagged with the window that names its table. -/
structure TokenPairRow where
  window_start : Int
  window_stop : Int
  token_a : String
  token_b : String
  fee : Int
  completed : Bool
deriving DecidableEq, Repr

/-- Row of a `pool_data_{token_a}_{token_b}_{fee}` table
(`pool_data_table_columns`); the Result Archive is append-only. -/
structure PoolDataRow where
  token_a : String
  token_b : String
  fee : Int
  block_number : String
  event_type : String
  transaction_hash : String
deriving DecidableEq, Repr

/-- The persistent state owned by `DBManager`: each table is the list of its
rows in insertion order. -/
structure DB where
  timetable : List TimetableRow
  tokenPairs : List TokenPairRow
  poolData : List PoolDataRow
deriving DecidableEq, Repr

/-- `DBManager.add_timetable_entry`: inserts a new incomplete window. -/
def add_timetable_entry (db : DB) (s e : Int) : DB :=
  { db with timetable := db.timetable ++ [⟨s, e, false⟩] }

/-- `DBManager.fetch_incompleted_time_range`: all rows with
`completed=False`, in table order. -/
def fetch_incompleted_time_range (db : DB) : List TimetableRow :=
  db.timetable.filter (fun r => !r.completed)

/-- `DBManager.fetch_last_time_range`: `ORDER BY start DESC` then `first()`,
i.e. the row with the greatest `start` (`start` is the primary key), or
`None` when the table is empty. -/
def fetch_last_time_range (db : DB) : Option TimetableRow :=
  match db.timetable with
  | [] => none
  | x :: xs => some (xs.foldl (fun best r => if best.start < r.start then r else best) x)

/-- `DBManager.mark_time_range_as_complete`: if a row matches
`(start, end)` set its `completed` flag and return `True`, else return
`False`.  The source updates the single row found by `.first()`; since
`start` is the primary key at most one row can match, so setting the flag
on every matching row is the same operation. -/
def mark_time_range_as_complete (db : DB) (s e : Int) : DB × Bool :=
  let p := fun (r : TimetableRow) => r.start == s && r.stop == e
  if db.timetable.any p then
    ({ db with timetable := db.timetable.map (fun r => if p r then { r with completed := true } else r) }, true)
  else (db, false)

/-- `DBManager.mark_token_pair_as_complete`: looks for a row of the
window's token-pair table matching `(token_a, token_b, fee)`; if one exists
the update statement sets `completed` on every matching row and the call
returns `True`, otherwise `False`. -/
def mark_token_pair_as_complete (db : DB) (s e : Int) (a b : String) (fee : Int) :
    DB × Bool :=
  let p := fun (r : TokenPairRow) =>
    r.window_start == s && r.window_stop == e &&
    r.token_a == a && r.token_b == b && r.fee == fee
  if db.tokenPairs.any p then
    ({ db with tokenPairs := db.tokenPairs.map (fun r => if p r then { r with completed := true } else r) }, true)
  else (db, false)

/-- `TextValidator.get_time_range`: returns the first incomplete window if
one exists; otherwise reads the last window and appends a new incomplete
window `[last.end, last.end + 1 day)`.  When the timetable is empty the
source subscripts `None` (`last_time_range["end"]`), which raises. -/
def get_time_range (db : DB) : Except String ((Int × Int) × DB) :=
  match fetch_incompleted_time_range db with
  | [] =>
    match fetch_last_time_range db with
    | none => .error "TypeError: NoneType object is not subscriptable"
    | some last =>
      let s := last.stop
      let e := last.stop + 1
      .ok ((s, e), add_timetable_entry db s e)
  | r :: _ => .ok ((r.start, r.stop), db)

/-- Contiguity invariant of the timetable: rows are stored in creation
order, each window starts where the previous one ends, and every window is
nonempty.  This is the steady state the Task Ledger maintains. -/
def goodTable (l : List TimetableRow) : Prop :=
  l.Chain' (fun a b => a.stop = b.start) ∧ ∀ r ∈ l, r.start < r.stop

/-- One record of a worker answer's `data` list: `block_data.get("block_number", None)`
may be absent, `block_data["hash"]` is the content hash the verifier compares. -/
structure BlockRecord where
  block_number : Option Int
  hash : String
deriving DecidableEq, Repr

/-- A parsed (non-null) worker answer: the self-reported fingerprint
`overall_hash` and the `data` list of records. -/
structure Answer where
  overall_hash : String
  data : List BlockRecord
deriving DecidableEq, Repr

/-- Modelled from the spec: the ground-truth oracle boundary
(`fetch_block_range`, `fetch_block_data_by_block_number` of §6), already
specialised to the round's token pair and time window.  The source calls
these through the imported native module; only their boundary is specified.
`block_start, block_stop` is the valid block range, `hash_of` the
authoritative hash per block number. -/
structure Oracle where
  block_start : Int
  block_stop : Int
  hash_of : Int → String

/-- `ANSWER_CHECK_COUNT` in `check_miner_answer`. -/
def ANSWER_CHECK_COUNT : Nat := 10

/-- One sampled record's check in `check_miner_answer`: a missing block
number, a block number outside the oracle range, or a hash differing from
the oracle's hash all fail. -/
def recordPasses (o : Oracle) (b : BlockRecord) : Bool :=
  match b.block_number with
  | none => false
  | some n => !(n < o.block_start || o.block_stop < n) && (o.hash_of n == b.hash)

/-- `TextValidator.check_miner_answer`: draws `ANSWER_CHECK_COUNT` records
via `random.choice(miner_data)` — the injectable random source `rng` gives
the index of draw `k`, reduced mod the list length exactly as a uniform
choice over valid indices — and succeeds only if every sampled record
passes.  `random.choice` on an empty list raises `IndexError`. -/
def check_miner_answer (o : Oracle) (rng : Nat → Nat) (data : List BlockRecord) :
    Except String Bool :=
  if data.isEmpty then .error "IndexError: cannot choose from an empty sequence"
  else .ok ((List.range ANSWER_CHECK_COUNT).all
    (fun k => recordPasses o (data.getD (rng k % data.length) ⟨none, ""⟩)))

/-- `TextValidator._score_miner`: a falsy (null) answer scores 0, any other
answer scores the constant 0.9. -/
def score_miner (a : Option Answer) : ℚ :=
  match a with
  | none => 0
  | some _ => 9 / 10

/-- The scoring loop of `validate_step` over the surviving miner results:
each entry of `miner_results` is a non-null dict (it carries at least
`overall_hash`), so the `if not miner_answer: continue` guard never skips,
and every uid is inserted with `_score_miner`'s value. -/
def round_scores (results : List (Nat × Answer)) : List (Nat × ℚ) :=
  results.map (fun p => (p.1, score_miner (some p.2)))

/-- Python's `max(iterable, key=f)`: scans the iterable, keeping the first
element and replacing it only when a strictly greater key appears, so the
earliest element with maximal key wins; `None` models the `ValueError` on
an empty iterable. -/
def pyMax (key : String → Nat) : List String → Option String
  | [] => none
  | x :: xs => some (xs.foldl (fun best y => if key y > key best then y else best) x)

/-- `max(set(overall_hashes), key=overall_hashes.count)` from
`validate_step`.  The iteration order of the Python `set` is an
implementation artifact (string hashing is seeded per process), so it is
an explicit parameter `setOrder`; `ValidSetOrder` below says which orders
a set can produce. -/
def most_common_hash (setOrder : List String) (hashes : List String) : Option String :=
  pyMax (fun h => hashes.count h) setOrder

/-- `setOrder` enumerates exactly the distinct elements of `hashes`, each
once, in some order: the possible iteration orders of
`set(overall_hashes)`. -/
def ValidSetOrder (setOrder hashes : List String) : Prop :=
  setOrder.Nodup ∧ setOrder ⊆ hashes ∧ hashes ⊆ setOrder

/-- Models `[miner_answer["overall_hash"] for miner_answer in miner_answers]`
paired with the miner uids of `zip(modules_info.keys(), miner_answers)`:
subscripting a `None` answer raises `TypeError`; when every answer is
non-null the uid/answer pairs are returned unchanged. -/
def collectNonNull : List (Nat × Option Answer) → Except String (List (Nat × Answer))
  | [] => .ok []
  | (u, some a) :: rest =>
    match collectNonNull rest with
    | .ok l => .ok ((u, a) :: l)
    | .error e => .error e
  | (_, none) :: _ => .error "TypeError: NoneType object is not subscriptable"

/-- Stable descending insertion: the new element goes after every element
with a greater-or-equal score, as Python's stable
`sorted(..., key=lambda x: x[1], reverse=True)` orders ties. -/
def insertDesc : List (Nat × ℚ) → (Nat × ℚ) → List (Nat × ℚ)
  | [], x => [x]
  | y :: ys, x => if y.2 < x.2 then x :: y :: ys else y :: insertDesc ys x

/-- Stable descending sort by score, processing entries in dict insertion
order. -/
def sortDesc (l : List (Nat × ℚ)) : List (Nat × ℚ) :=
  l.foldl insertDesc []

/-- `cut_to_max_allowed_weights`: sort the score dict descending by score
and keep the first `max_allowed_weights` entries. -/
def cut_to_max_allowed_weights (score_dict : List (Nat × ℚ)) (maxAllowed : Nat) :
    List (Nat × ℚ) :=
  (sortDesc score_dict).take maxAllowed

/-- Python's `int()` applied to a quotient: truncation toward zero. -/
def pyInt (q : ℚ) : Int :=
  if q < 0 then -Int.floor (-q) else Int.floor q

/-- `set_weights`: cut the scores, normalize each retained score to
`int(score * 1000 / scores)` where `scores` is the sum of retained scores,
drop zero weights, and submit the remaining `(uid, weight)` pairs as the
vote.  Scores are modelled in `ℚ`; the returned list is the submitted
vote. -/
def set_weights (score_dict : List (Nat × ℚ)) (maxAllowed : Nat) :
    List (Nat × Int) :=
  let cut := cut_to_max_allowed_weights score_dict maxAllowed
  let scores := (cut.map (fun p => p.2)).sum
  let weighted := cut.map (fun p => (p.1, pyInt (p.2 * 1000 / scores)))
  weighted.filter (fun p => p.2 != 0)

/-- `TextValidator.validate_step` from the registration check onward, as a
function of the collected state of one round: `moduleKeys` is
`query_map_key`, `valKey` the validator's ss58 address, `uids` the keys of
`modules_info`, `answers` the collected (possibly null) miner answers in
the same order, `setOrder` the iteration order of the hash set, `o` the
oracle and `rng` the random source of the verifier, `maxAllowed`
`settings.max_allowed_weights`.  The job description built by
`get_miner_prompt` reduces to its `get_time_range` call (the rest of that
body is commented out in the source; per the spec it names the token pair
and window the oracle is already specialised to).  The result is the
submitted vote, if any, plus the database state. -/
def validate_step (moduleKeys : List (Nat × String)) (valKey : String)
    (uids : List Nat) (answers : List (Option Answer)) (setOrder : List String)
    (o : Oracle) (rng : Nat → Nat) (maxAllowed : Nat) (db : DB) :
    Except String (Option (List (Nat × Int)) × DB) :=
  if valKey ∈ moduleKeys.map (fun p => p.2) then
    match get_time_range db with
    | .error e => .error e
    | .ok (_, db1) =>
      match collectNonNull (uids.zip answers) with
      | .error e => .error e
      | .ok pairs =>
        match most_common_hash setOrder (pairs.map (fun p => p.2.overall_hash)) with
        | none => .error "ValueError: max arg is an empty sequence"
        | some mc =>
          match (pairs.filter (fun p => p.2.overall_hash == mc)).head? with
          | none => .error "IndexError: list index out of range"
          | some top =>
            match check_miner_answer o rng top.2.data with
            | .error e => .error e
            | .ok false => .ok (none, db1)
            | .ok true =>
              let score_dict := round_scores (pairs.filter (fun p => p.2.overall_hash == mc))
              if score_dict.isEmpty then .ok (none, db1)
              else .ok (some (set_weights score_dict maxAllowed), db1)
  else .error "RuntimeError: validator key is not registered in subnet"

theorem goodTable_pairwise {l : List TimetableRow} (h : goodTable l) :
    l.Pairwise (fun a b => a.stop ≤ b.start ∧ a.start < b.start) := by
  obtain ⟨hc, hm⟩ := h
  induction l with
  | nil => exact List.Pairwise.nil
  | cons a t ih =>
    have ht : t.Chain' (fun a b => a.stop = b.start) := hc.tail
    have hmt : ∀ r ∈ t, r.start < r.stop := fun r hr => hm r (List.mem_cons_of_mem a hr)
    have hpt := ih ht hmt
    refine List.Pairwise.cons ?_ hpt
    intro b hb
    cases t with
    | nil => cases hb
    | cons c t' =>
      have hac : a.stop = c.start := (List.chain'_cons.mp hc).1
      have ha : a.start < a.stop := hm a (List.mem_cons_self a _)
      rcases List.mem_cons.mp hb with hb | hb
      · subst hb
        exact ⟨le_of_eq hac, lt_of_lt_of_le ha (le_of_eq hac)⟩
      · have hcb := (List.pairwise_cons.mp hpt).1 b hb
        have hc' : c.start < c.stop := hmt c (List.mem_cons_self c _)
        constructor
        · exact le_of_lt (by calc a.stop = c.start := hac
            _ < c.stop := hc'
            _ ≤ b.start := hcb.1)
        · calc a.start < a.stop := ha
            _ = c.start := hac
            _ < b.start := hcb.2

theorem fetch_last_foldl_getLast {l : List TimetableRow}
    (hp : l.Pairwise (fun a b => a.stop ≤ b.start ∧ a.start < b.start)) :
    ∀ (x : TimetableRow), (∀ y ∈ l, x.start < y.start) →
      some (l.foldl (fun best r => if best.start < r.start then r else best) x) =
        (x :: l).getLast? := by
  induction l with
  | nil => intro x _; rfl
  | cons y t ih =>
    intro x hx
    have hxy : x.start < y.start := hx y (List.mem_cons_self y t)
    have hstep : (if x.start < y.start then y else x) = y := if_pos hxy
    have hyt : ∀ z ∈ t, y.start < z.start := fun z hz =>
      ((List.pairwise_cons.mp hp).1 z hz).2
    have ih' := ih (List.pairwise_cons.mp hp).2 y hyt
    simp only [List.foldl_cons, hstep]
    rw [ih', List.getLast?_cons_cons]

theorem fetch_last_time_range_eq {db : DB} (h : goodTable db.timetable) :
    fetch_last_time_range db = db.timetable.getLast? := by
  rcases htl : db.timetable with _ | ⟨x, xs⟩
  · simp [fetch_last_time_range, htl]
  · have hp := goodTable_pairwise h
    rw [htl] at hp
    have hx : ∀ y ∈ xs, x.start < y.start := fun y hy =>
      ((List.pairwise_cons.mp hp).1 y hy).2
    have := fetch_last_foldl_getLast (List.pairwise_cons.mp hp).2 x hx
    simp only [fetch_last_time_range, htl, this]

theorem goodTable_map_keep_bounds {l : List TimetableRow} {g : TimetableRow → TimetableRow}
    (hg : ∀ r, (g r).start = r.start ∧ (g r).stop = r.stop) (h : goodTable l) :
    goodTable (l.map g) := by
  obtain ⟨hc, hm⟩ := h
  constructor
  · rw [List.chain'_map]
    exact hc.imp (fun a b hab => by rw [(hg a).2, (hg b).1]; exact hab)
  · intro r hr
    obtain ⟨r0, hr0, rfl⟩ := List.mem_map.mp hr
    rw [(hg r0).1, (hg r0).2]
    exact hm r0 hr0

theorem mark_time_range_goodTable (db : DB) (s e : Int) (h : goodTable db.timetable) :
    goodTable ((mark_time_range_as_complete db s e).1).timetable := by
  unfold mark_time_range_as_complete
  by_cases hany : db.timetable.any (fun r => r.start == s && r.stop == e)
  · simp only [hany, if_true]
    exact goodTable_map_keep_bounds
      (fun r => by by_cases hp : (r.start == s && r.stop == e) = true <;> simp [hp]) h
  · simp only [hany, if_false]
    exact h

theorem goodTable_append_next {l : List TimetableRow} (h : goodTable l)
    {last : TimetableRow} (hget : l.getLast? = some last) :
    goodTable (l ++ [⟨last.stop, last.stop + 1, false⟩]) := by
  constructor
  · rw [List.chain'_append]
    refine ⟨h.1, List.chain'_singleton _, ?_⟩
    intro x hx y hy
    rw [hget] at hx
    simp only [Option.mem_def, Option.some.injEq] at hx
    simp only [List.head?_cons, Option.mem_def, Option.some.injEq] at hy
    subst hx
    subst hy
    rfl
  · intro r hr
    rcases List.mem_append.mp hr with hr | hr
    · exact h.2 r hr
    · simp only [List.mem_singleton] at hr
      subst hr
      simp only []
      omega

/-- C3: `get_time_range` (the spec's `next_time_window`) returns the oldest
incomplete window when one exists and leaves the ledger unchanged;
otherwise it appends exactly one new incomplete window starting at the
last window's end and ending one day later.  The contiguity invariant
(each window starts where the previous ends, windows nonempty) is
preserved by `get_time_range` and by `mark_time_range_as_complete`, and it
implies that windows never overlap. -/
theorem C3_next_time_window_correct :
    ∀ db : DB, goodTable db.timetable → db.timetable ≠ [] →
    ∃ s e db2, get_time_range db = .ok ((s, e), db2) ∧
      goodTable db2.timetable ∧
      db2.timetable.Pairwise (fun a b => a.stop ≤ b.start) ∧
      (∀ r0 t, fetch_incompleted_time_range db = r0 :: t →
        db2 = db ∧ s = r0.start ∧ e = r0.stop ∧
        ∀ r ∈ fetch_incompleted_time_range db, s ≤ r.start) ∧
      (fetch_incompleted_time_range db = [] →
        ∃ last, db.timetable.getLast? = some last ∧ s = last.stop ∧ e = s + 1 ∧
          db2.timetable = db.timetable ++ [⟨s, e, false⟩]) ∧
      (∀ s3 e3, goodTable ((mark_time_range_as_complete db s3 e3).1).timetable) := by
  intro db h hne
  rcases hinc : fetch_incompleted_time_range db with _ | ⟨r0, t⟩
  · -- no incomplete window: a fresh one is created after the last window
    have hlast := fetch_last_time_range_eq h
    have hget := List.getLast?_eq_getLast_of_ne_nil hne
    have hgood2 : goodTable (db.timetable ++
        [⟨(db.timetable.getLast hne).stop, (db.timetable.getLast hne).stop + 1, false⟩]) :=
      goodTable_append_next h hget
    refine ⟨(db.timetable.getLast hne).stop, (db.timetable.getLast hne).stop + 1,
      add_timetable_entry db (db.timetable.getLast hne).stop
        ((db.timetable.getLast hne).stop + 1), ?_, ?_, ?_, ?_, ?_, ?_⟩
    · simp [get_time_range, hinc, hlast, hget]
    · exact hgood2
    · exact (goodTable_pairwise hgood2).imp (fun hab => hab.1)
    · intro r0 t heq
      exact List.noConfusion heq
    · intro _
      exact ⟨db.timetable.getLast hne, hget, rfl, rfl, rfl⟩
    · intro s3 e3
      exact mark_time_range_goodTable db s3 e3 h
  · -- an incomplete window exists: it is returned unchanged and is the oldest
    refine ⟨r0.start, r0.stop, db, ?_, h, (goodTable_pairwise h).imp (fun hab => hab.1),
      ?_, ?_, ?_⟩
    · simp [get_time_range, hinc]
    · intro r0' t' heq
      injection heq with h1 h2
      subst h1
      refine ⟨rfl, rfl, rfl, ?_⟩
      intro r hr
      rcases List.mem_cons.mp hr with hr | hr
      · subst hr; exact le_refl _
      · have hp : (fetch_incompleted_time_range db).Pairwise
            (fun a b => a.stop ≤ b.start ∧ a.start < b.start) :=
          (goodTable_pairwise h).sublist (List.filter_sublist _)
        rw [hinc] at hp
        exact le_of_lt ((List.pairwise_cons.mp hp).1 r hr).2
    · intro heq
      exact List.noConfusion heq
    · intro s3 e3
      exact mark_time_range_goodTable db s3 e3 h

/-- Witness for C3 at a concrete ledger with one completed window
`[0, 1)`: the call succeeds and creates the contiguous window `[1, 2)`. -/
theorem C3_witness :
    ∃ s e db2, get_time_range ⟨[⟨0, 1, true⟩], [], []⟩ = .ok ((s, e), db2) ∧
      goodTable db2.timetable := by
  obtain ⟨s, e, db2, h1, h2, _⟩ :=
    C3_next_time_window_correct ⟨[⟨0, 1, true⟩], [], []⟩
      ⟨List.chain'_singleton _, by intro r hr; simp at hr; subst hr; decide⟩
      (by simp)
  exact ⟨s, e, db2, h1, h2⟩

theorem any_map_flag {α : Type} (p : α → Bool) (g : α → α)
    (hpg : ∀ r, p (g r) = p r) (l : List α) :
    (l.map (fun r => if p r then g r else r)).any p = l.any p := by
  induction l with
  | nil => rfl
  | cons x xs ih =>
    by_cases hx : p x = true <;> simp [hx, hpg, ih]

theorem map_flag_idem {α : Type} (p : α → Bool) (g : α → α)
    (hpg : ∀ r, p (g r) = p r) (hgg : ∀ r, g (g r) = g r) (l : List α) :
    (l.map (fun r => if p r then g r else r)).map (fun r => if p r then g r else r) =
      l.map (fun r => if p r then g r else r) := by
  rw [List.map_map]
  apply List.map_congr_left
  intro r _
  by_cases hr : p r = true
  · simp [Function.comp, hr, hpg, hgg]
  · simp [Function.comp, hr]

theorem mark_time_range_spec (db : DB) (s e : Int) :
    ((mark_time_range_as_complete db s e).2 = true ↔
      ∃ r ∈ db.timetable, r.start = s ∧ r.stop = e) ∧
    ((mark_time_range_as_complete db s e).2 = false →
      (mark_time_range_as_complete db s e).1 = db) ∧
    ((mark_time_range_as_complete db s e).2 = true →
      ∃ r ∈ ((mark_time_range_as_complete db s e).1).timetable,
        r.start = s ∧ r.stop = e ∧ r.completed = true) ∧
    (mark_time_range_as_complete (mark_time_range_as_complete db s e).1 s e =
      mark_time_range_as_complete db s e) := by
  have hpg : ∀ r : TimetableRow,
      ((fun r : TimetableRow => r.start == s && r.stop == e) ({ r with completed := true })) =
        ((fun r : TimetableRow => r.start == s && r.stop == e) r) := fun _ => rfl
  by_cases hany : db.timetable.any (fun r => r.start == s && r.stop == e) = true
  · have hmap := any_map_flag (fun r : TimetableRow => r.start == s && r.stop == e)
      (fun r => { r with completed := true }) hpg db.timetable
    have hidem := map_flag_idem (fun r : TimetableRow => r.start == s && r.stop == e)
      (fun r => { r with completed := true }) hpg (fun _ => rfl) db.timetable
    obtain ⟨r, hr, hpr⟩ := List.any_eq_true.mp hany
    have hpr' : r.start = s ∧ r.stop = e := by simpa using hpr
    have heq : mark_time_range_as_complete db s e =
        ({ db with timetable := db.timetable.map (fun r =>
          if r.start == s && r.stop == e then { r with completed := true } else r) }, true) := by
      simp [mark_time_range_as_complete, hany]
    have heq2 : mark_time_range_as_complete (mark_time_range_as_complete db s e).1 s e =
        mark_time_range_as_complete db s e := by
      rw [heq]
      have hany2 : ((db.timetable.map (fun r =>
          if r.start == s && r.stop == e then { r with completed := true } else r)).any
            (fun r => r.start == s && r.stop == e)) = true := by
        rw [hmap]; exact hany
      simp only [mark_time_range_as_complete, hany2, if_true]
      exact congrArg (fun l => ({ db with timetable := l }, true)) hidem
    refine ⟨?_, ?_, ?_, heq2⟩
    · rw [heq]
      exact iff_of_true rfl ⟨r, hr, hpr'⟩
    · intro hfalse
      rw [heq] at hfalse
      cases hfalse
    · intro _
      rw [heq]
      refine ⟨{ r with completed := true }, ?_, hpr'.1, hpr'.2, rfl⟩
      have hfr : (fun r : TimetableRow => if r.start == s && r.stop == e
          then { r with completed := true } else r) r = { r with completed := true } := by
        simp [hpr'.1, hpr'.2]
      exact hfr ▸ List.mem_map_of_mem _ hr
  · have hany' : db.timetable.any (fun r => r.start == s && r.stop == e) = false := by
      simpa using hany
    have heq : mark_time_range_as_complete db s e = (db, false) := by
      simp [mark_time_range_as_complete, hany']
    refine ⟨?_, ?_, ?_, ?_⟩
    · rw [heq]
      refine iff_of_false (by simp) ?_
      intro ⟨r, hr, h1, h2⟩
      have : db.timetable.any (fun r => r.start == s && r.stop == e) = true :=
        List.any_eq_true.mpr ⟨r, hr, by simp [h1, h2]⟩
      rw [this] at hany'
      cases hany'
    · intro _
      rw [heq]
    · intro hc
      rw [heq] at hc
      cases hc
    · rw [heq]
      exact heq

theorem mark_token_pair_spec (db : DB) (s e : Int) (a b : String) (fee : Int) :
    ((mark_token_pair_as_complete db s e a b fee).2 = true ↔
      ∃ r ∈ db.tokenPairs, r.window_start = s ∧ r.window_stop = e ∧
        r.token_a = a ∧ r.token_b = b ∧ r.fee = fee) ∧
    ((mark_token_pair_as_complete db s e a b fee).2 = false →
      (mark_token_pair_as_complete db s e a b fee).1 = db) ∧
    ((mark_token_pair_as_complete db s e a b fee).2 = true →
      ∃ r ∈ ((mark_token_pair_as_complete db s e a b fee).1).tokenPairs,
        r.window_start = s ∧ r.window_stop = e ∧ r.token_a = a ∧ r.token_b = b ∧
        r.fee = fee ∧ r.completed = true) ∧
    (mark_token_pair_as_complete (mark_token_pair_as_complete db s e a b fee).1 s e a b fee =
      mark_token_pair_as_complete db s e a b fee) := by
  have hpg : ∀ r : TokenPairRow,
      ((fun r : TokenPairRow => r.window_start == s && r.window_stop == e &&
        r.token_a == a && r.token_b == b && r.fee == fee) ({ r with completed := true })) =
      ((fun r : TokenPairRow => r.window_start == s && r.window_stop == e &&
        r.token_a == a && r.token_b == b && r.fee == fee) r) := fun _ => rfl
  by_cases hany : db.tokenPairs.any (fun r => r.window_start == s && r.window_stop == e &&
      r.token_a == a && r.token_b == b && r.fee == fee) = true
  · have hmap := any_map_flag (fun r : TokenPairRow => r.window_start == s && r.window_stop == e &&
      r.token_a == a && r.token_b == b && r.fee == fee)
      (fun r : TokenPairRow => { r with completed := true }) hpg db.tokenPairs
    have hidem := map_flag_idem (fun r : TokenPairRow => r.window_start == s && r.window_stop == e &&
      r.token_a == a && r.token_b == b && r.fee == fee)
      (fun r : TokenPairRow => { r with completed := true }) hpg (fun _ => rfl) db.tokenPairs
    obtain ⟨r, hr, hpr⟩ := List.any_eq_true.mp hany
    have hpr' : r.window_start = s ∧ r.window_stop = e ∧ r.token_a = a ∧ r.token_b = b ∧
        r.fee = fee := by
      simp only [Bool.and_eq_true, beq_iff_eq] at hpr
      exact ⟨hpr.1.1.1.1, hpr.1.1.1.2, hpr.1.1.2, hpr.1.2, hpr.2⟩
    have heq : mark_token_pair_as_complete db s e a b fee =
        ({ db with tokenPairs := db.tokenPairs.map (fun r =>
          if r.window_start == s && r.window_stop == e &&
            r.token_a == a && r.token_b == b && r.fee == fee
          then { r with completed := true } else r) }, true) := by
      simp [mark_token_pair_as_complete, hany]
    have heq2 : mark_token_pair_as_complete (mark_token_pair_as_complete db s e a b fee).1
        s e a b fee = mark_token_pair_as_complete db s e a b fee := by
      rw [heq]
      have hany2 : ((db.tokenPairs.map (fun r =>
          if r.window_start == s && r.window_stop == e &&
            r.token_a == a && r.token_b == b && r.fee == fee
          then { r with completed := true } else r)).any
            (fun r => r.window_start == s && r.window_stop == e &&
              r.token_a == a && r.token_b == b && r.fee == fee)) = true := by
        rw [hmap]; exact hany
      simp only [mark_token_pair_as_complete, hany2, if_true]
      exact congrArg (fun l => ({ db with tokenPairs := l }, true)) hidem
    refine ⟨?_, ?_, ?_, heq2⟩
    · rw [heq]
      exact iff_of_true rfl ⟨r, hr, hpr'⟩
    · intro hfalse
      rw [heq] at hfalse
      cases hfalse
    · intro _
      rw [heq]
      refine ⟨{ r with completed := true }, ?_, hpr'.1, hpr'.2.1, hpr'.2.2.1,
        hpr'.2.2.2.1, hpr'.2.2.2.2, rfl⟩
      have hfr : (fun r : TokenPairRow =>
          if r.window_start == s && r.window_stop == e &&
            r.token_a == a && r.token_b == b && r.fee == fee
          then { r with completed := true } else r) r = { r with completed := true } := by
        simp [hpr'.1, hpr'.2.1, hpr'.2.2.1, hpr'.2.2.2.1, hpr'.2.2.2.2]
      exact hfr ▸ List.mem_map_of_mem _ hr
  · have hany' : db.tokenPairs.any (fun r => r.window_start == s && r.window_stop == e &&
        r.token_a == a && r.token_b == b && r.fee == fee) = false := by simpa using hany
    have heq : mark_token_pair_as_complete db s e a b fee = (db, false) := by
      simp [mark_token_pair_as_complete, hany']
    refine ⟨?_, ?_, ?_, ?_⟩
    · rw [heq]
      refine iff_of_false (by simp) ?_
      intro ⟨r, hr, h1, h2, h3, h4, h5⟩
      have : db.tokenPairs.any (fun r => r.window_start == s && r.window_stop == e &&
          r.token_a == a && r.token_b == b && r.fee == fee) = true :=
        List.any_eq_true.mpr ⟨r, hr, by simp [h1, h2, h3, h4, h5]⟩
      rw [this] at hany'
      cases hany'
    · intro _
      rw [heq]
    · intro hc
      rw [heq] at hc
      cases hc
    · rw [heq]
      exact heq

/-- C4: `mark_time_range_as_complete` and `mark_token_pair_as_complete`
return `false` exactly when no record matches the key, return `true` and
persist the completion flag when one does, and are idempotent: a second
call with the same key returns the same answer and leaves the state of the
first call unchanged. -/
theorem C4_mark_complete_idempotent :
    ∀ (db : DB) (s e : Int) (a b : String) (fee : Int),
      ((mark_time_range_as_complete db s e).2 = true ↔
        ∃ r ∈ db.timetable, r.start = s ∧ r.stop = e) ∧
      ((mark_time_range_as_complete db s e).2 = false →
        (mark_time_range_as_complete db s e).1 = db) ∧
      ((mark_time_range_as_complete db s e).2 = true →
        ∃ r ∈ ((mark_time_range_as_complete db s e).1).timetable,
          r.start = s ∧ r.stop = e ∧ r.completed = true) ∧
      (mark_time_range_as_complete (mark_time_range_as_complete db s e).1 s e =
        mark_time_range_as_complete db s e) ∧
      ((mark_token_pair_as_complete db s e a b fee).2 = true ↔
        ∃ r ∈ db.tokenPairs, r.window_start = s ∧ r.window_stop = e ∧
          r.token_a = a ∧ r.token_b = b ∧ r.fee = fee) ∧
      ((mark_token_pair_as_complete db s e a b fee).2 = false →
        (mark_token_pair_as_complete db s e a b fee).1 = db) ∧
      ((mark_token_pair_as_complete db s e a b fee).2 = true →
        ∃ r ∈ ((mark_token_pair_as_complete db s e a b fee).1).tokenPairs,
          r.window_start = s ∧ r.window_stop = e ∧ r.token_a = a ∧ r.token_b = b ∧
          r.fee = fee ∧ r.completed = true) ∧
      (mark_token_pair_as_complete (mark_token_pair_as_complete db s e a b fee).1 s e a b fee =
        mark_token_pair_as_complete db s e a b fee) := by
  intro db s e a b fee
  obtain ⟨h1, h2, h3, h4⟩ := mark_time_range_spec db s e
  obtain ⟨h5, h6, h7, h8⟩ := mark_token_pair_spec db s e a b fee
  exact ⟨h1, h2, h3, h4, h5, h6, h7, h8⟩

/-- Witness for C4 at a ledger with one window row and one token-pair row:
both marks succeed, both rows end up flagged complete, and repeating
either call changes nothing. -/
theorem C4_witness :
    ((mark_time_range_as_complete
        ⟨[⟨0, 1, false⟩], [⟨0, 1, "T0", "T1", 3000, false⟩], []⟩ 0 1).2 = true ∧
      ∃ r ∈ ((mark_time_range_as_complete
          ⟨[⟨0, 1, false⟩], [⟨0, 1, "T0", "T1", 3000, false⟩], []⟩ 0 1).1).timetable,
        r.start = 0 ∧ r.stop = 1 ∧ r.completed = true) ∧
    ((mark_token_pair_as_complete
        ⟨[⟨0, 1, false⟩], [⟨0, 1, "T0", "T1", 3000, false⟩], []⟩ 0 1 "T0" "T1" 3000).2 = true ∧
      ∃ r ∈ ((mark_token_pair_as_complete
          ⟨[⟨0, 1, false⟩], [⟨0, 1, "T0", "T1", 3000, false⟩], []⟩
          0 1 "T0" "T1" 3000).1).tokenPairs,
        r.window_start = 0 ∧ r.window_stop = 1 ∧ r.token_a = "T0" ∧ r.token_b = "T1" ∧
        r.fee = 3000 ∧ r.completed = true) ∧
    (mark_time_range_as_complete
        (mark_time_range_as_complete
          ⟨[⟨0, 1, false⟩], [⟨0, 1, "T0", "T1", 3000, false⟩], []⟩ 0 1).1 0 1 =
      mark_time_range_as_complete
        ⟨[⟨0, 1, false⟩], [⟨0, 1, "T0", "T1", 3000, false⟩], []⟩ 0 1) ∧
    (mark_token_pair_as_complete
        (mark_token_pair_as_complete
          ⟨[⟨0, 1, false⟩], [⟨0, 1, "T0", "T1", 3000, false⟩], []⟩ 0 1 "T0" "T1" 3000).1
        0 1 "T0" "T1" 3000 =
      mark_token_pair_as_complete
        ⟨[⟨0, 1, false⟩], [⟨0, 1, "T0", "T1", 3000, false⟩], []⟩ 0 1 "T0" "T1" 3000) := by
  obtain ⟨h1, _, h3, h4, h5, _, h7, h8⟩ :=
    C4_mark_complete_idempotent
      ⟨[⟨0, 1, false⟩], [⟨0, 1, "T0", "T1", 3000, false⟩], []⟩ 0 1 "T0" "T1" 3000
  have ht1 : (mark_time_range_as_complete
      ⟨[⟨0, 1, false⟩], [⟨0, 1, "T0", "T1", 3000, false⟩], []⟩ 0 1).2 = true :=
    h1.mpr ⟨⟨0, 1, false⟩, by simp, rfl, rfl⟩
  have ht2 : (mark_token_pair_as_complete
      ⟨[⟨0, 1, false⟩], [⟨0, 1, "T0", "T1", 3000, false⟩], []⟩ 0 1 "T0" "T1" 3000).2 = true :=
    h5.mpr ⟨⟨0, 1, "T0", "T1", 3000, false⟩, by simp, rfl, rfl, rfl, rfl, rfl⟩
  exact ⟨⟨ht1, h3 ht1⟩, ⟨ht2, h7 ht2⟩, h4, h8⟩

/-- C9: with an empty timetable there is no incomplete window and no last
window, so `get_time_range` raises `TypeError` instead of creating a
bootstrap window, and `validate_step` (whose job construction calls it)
fails the round for a registered validator: a pre-existing window is a
precondition of every round. -/
theorem C9_empty_timetable_precondition :
    ∀ db : DB, db.timetable = [] →
      fetch_incompleted_time_range db = [] ∧
      fetch_last_time_range db = none ∧
      get_time_range db = .error "TypeError: NoneType object is not subscriptable" ∧
      (∀ (mk : List (Nat × String)) (vk : String) (uids : List Nat)
        (answers : List (Option Answer)) (so : List String) (o : Oracle)
        (rng : Nat → Nat) (maxA : Nat),
        vk ∈ mk.map (fun p => p.2) →
        validate_step mk vk uids answers so o rng maxA db =
          .error "TypeError: NoneType object is not subscriptable") := by
  intro db hdb
  have h1 : fetch_incompleted_time_range db = [] := by
    simp [fetch_incompleted_time_range, hdb]
  have h2 : fetch_last_time_range db = none := by
    simp [fetch_last_time_range, hdb]
  have h3 : get_time_range db = .error "TypeError: NoneType object is not subscriptable" := by
    simp [get_time_range, h1, h2]
  refine ⟨h1, h2, h3, ?_⟩
  intro mk vk uids answers so o rng maxA hreg
  simp [validate_step, hreg, h3]

/-- Witness for C9 at the empty database and a registered validator. -/
theorem C9_witness :
    get_time_range ⟨[], [], []⟩ = .error "TypeError: NoneType object is not subscriptable" ∧
    validate_step [(0, "k")] "k" [] [] [] ⟨0, 0, fun _ => ""⟩ (fun _ => 0) 420 ⟨[], [], []⟩ =
      .error "TypeError: NoneType object is not subscriptable" := by
  obtain ⟨_, _, h3, h4⟩ := C9_empty_timetable_precondition ⟨[], [], []⟩ rfl
  exact ⟨h3, h4 [(0, "k")] "k" [] [] [] ⟨0, 0, fun _ => ""⟩ (fun _ => 0) 420 (by decide)⟩

theorem pyMax_step_mem (key : String → Nat) :
    ∀ (xs : List String) (x : String),
      xs.foldl (fun best y => if key y > key best then y else best) x ∈ x :: xs := by
  intro xs
  induction xs with
  | nil => intro x; exact List.mem_singleton_self x
  | cons y t ih =>
    intro x
    simp only [List.foldl_cons]
    have h := ih (if key y > key x then y else x)
    rcases List.mem_cons.mp h with h | h
    · rw [h]
      by_cases hk : key y > key x
      · simp [hk]
      · simp [hk]
    · exact List.mem_cons_of_mem x (List.mem_cons_of_mem y h)

theorem pyMax_step_ge (key : String → Nat) :
    ∀ (xs : List String) (x z : String), z ∈ x :: xs →
      key z ≤ key (xs.foldl (fun best y => if key y > key best then y else best) x) := by
  intro xs
  induction xs with
  | nil =>
    intro x z hz
    rw [List.mem_singleton] at hz
    subst hz
    exact le_refl _
  | cons y t ih =>
    intro x z hz
    simp only [List.foldl_cons]
    have hxle : key x ≤ key (if key y > key x then y else x) := by
      by_cases hk : key y > key x
      · rw [if_pos hk]; exact le_of_lt hk
      · rw [if_neg hk]
    have hyle : key y ≤ key (if key y > key x then y else x) := by
      by_cases hk : key y > key x
      · rw [if_pos hk]
      · rw [if_neg hk]; exact le_of_not_lt hk
    rcases List.mem_cons.mp hz with hz | hz
    · subst hz
      exact le_trans hxle (ih _ _ (List.mem_cons_self _ _))
    · rcases List.mem_cons.mp hz with hz | hz
      · subst hz
        exact le_trans hyle (ih _ _ (List.mem_cons_self _ _))
      · exact ih _ z (List.mem_cons_of_mem _ hz)

theorem pyMax_step_keep (key : String → Nat) :
    ∀ (xs : List String) (x : String), (∀ y ∈ xs, key y ≤ key x) →
      xs.foldl (fun best y => if key y > key best then y else best) x = x := by
  intro xs
  induction xs with
  | nil => intro x _; rfl
  | cons y t ih =>
    intro x hx
    simp only [List.foldl_cons]
    have hk : ¬ key y > key x := not_lt.mpr (hx y (List.mem_cons_self _ _))
    rw [if_neg hk]
    exact ih x (fun z hz => hx z (List.mem_cons_of_mem _ hz))

theorem pyMax_step_strict (key : String → Nat) :
    ∀ (xs : List String) (x h : String), h ∈ x :: xs →
      (∀ y ∈ x :: xs, y ≠ h → key y < key h) →
      xs.foldl (fun best y => if key y > key best then y else best) x = h := by
  intro xs
  induction xs with
  | nil =>
    intro x h hmem _
    rw [List.mem_singleton] at hmem
    subst hmem
    rfl
  | cons y t ih =>
    intro x h hmem hlt
    simp only [List.foldl_cons]
    by_cases hxh : x = h
    · subst hxh
      have hstep : (if key y > key x then y else x) = x := by
        by_cases hyx : y = x
        · subst hyx; simp
        · exact if_neg (not_lt.mpr (le_of_lt (hlt y (by simp) hyx)))
      rw [hstep]
      exact pyMax_step_keep key t x (fun z hz => by
        by_cases hzx : z = x
        · subst hzx; exact le_refl _
        · exact le_of_lt (hlt z (by simp [hz]) hzx))
    · have hxlt : key x < key h := hlt x (by simp) hxh
      by_cases hyh : y = h
      · subst hyh
        rw [if_pos hxlt]
        exact pyMax_step_keep key t y (fun z hz => by
          by_cases hzy : z = y
          · subst hzy; exact le_refl _
          · exact le_of_lt (hlt z (by simp [hz]) hzy))
      · have hht : h ∈ t := by
          rcases List.mem_cons.mp hmem with h1 | h1
          · exact absurd h1.symm hxh
          · rcases List.mem_cons.mp h1 with h2 | h2
            · exact absurd h2.symm hyh
            · exact h2
        apply ih (if key y > key x then y else x) h (List.mem_cons_of_mem _ hht)
        intro z hz hzh
        rcases List.mem_cons.mp hz with hz | hz
        · subst hz
          by_cases hk : key y > key x
          · rw [if_pos hk]
            exact hlt y (by simp) hyh
          · rw [if_neg hk]
            exact hxlt
        · exact hlt z (List.mem_cons_of_mem _ (List.mem_cons_of_mem _ hz)) hzh

theorem pyMax_step_first (key : String → Nat) :
    ∀ (xs : List String) (x : String),
      ∃ l1 l2, x :: xs =
          l1 ++ (xs.foldl (fun best y => if key y > key best then y else best) x) :: l2 ∧
        ∀ y ∈ l1,
          key y < key (xs.foldl (fun best y => if key y > key best then y else best) x) := by
  intro xs
  induction xs with
  | nil =>
    intro x
    exact ⟨[], [], rfl, by intro y hy; cases hy⟩
  | cons y t ih =>
    intro x
    simp only [List.foldl_cons]
    by_cases hk : key y > key x
    · rw [if_pos hk]
      obtain ⟨l1, l2, heq, hlt⟩ := ih y
      refine ⟨x :: l1, l2, by rw [List.cons_append, ← heq], ?_⟩
      intro z hz
      rcases List.mem_cons.mp hz with hz | hz
      · subst hz
        exact lt_of_lt_of_le hk (pyMax_step_ge key t y y (List.mem_cons_self _ _))
      · exact hlt z hz
    · rw [if_neg hk]
      obtain ⟨l1, l2, heq, hlt⟩ := ih x
      rcases l1 with _ | ⟨a, l1t⟩
      · simp only [List.nil_append] at heq
        injection heq with h1 h2
        refine ⟨[], y :: t, ?_, by intro z hz; cases hz⟩
        rw [← h1]
        rfl
      · rw [List.cons_append] at heq
        injection heq with h1 h2
        subst h1
        refine ⟨x :: y :: l1t, l2, ?_, ?_⟩
        · rw [List.cons_append, List.cons_append, ← h2]
        · intro z hz
          have hx : key x < key (t.foldl (fun best y => if key y > key best then y else best) x) :=
            hlt x (List.mem_cons_self _ _)
          rcases List.mem_cons.mp hz with hz | hz
          · subst hz; exact hx
          · rcases List.mem_cons.mp hz with hz | hz
            · subst hz
              exact lt_of_le_of_lt (le_of_not_lt hk) hx
            · exact hlt z (List.mem_cons_of_mem _ hz)

/-- C1 (amended): the consensus step picks a fingerprint of maximal
multiplicity among the answers' `overall_hash` values; when one fingerprint
strictly outnumbers every other it is selected whatever the set iteration
order; a tie, however, is broken by the iteration order of the Python set
of fingerprints — the earliest set element with maximal count wins — which
need not coincide with response collection order. -/
theorem C1_consensus_majority :
    ∀ (hashes setOrder : List String), ValidSetOrder setOrder hashes → hashes ≠ [] →
    ∃ mc, most_common_hash setOrder hashes = some mc ∧ mc ∈ hashes ∧
      (∀ h ∈ hashes, hashes.count h ≤ hashes.count mc) ∧
      (∃ l1 l2, setOrder = l1 ++ mc :: l2 ∧
        ∀ y ∈ l1, hashes.count y < hashes.count mc) ∧
      (∀ hstar ∈ hashes,
        (∀ h ∈ hashes, h ≠ hstar → hashes.count h < hashes.count hstar) →
        mc = hstar) := by
  intro hashes setOrder hvalid hne
  obtain ⟨hnodup, hsub, hsup⟩ := hvalid
  have hsone : setOrder ≠ [] := by
    obtain ⟨z, hz⟩ := List.exists_mem_of_ne_nil hashes hne
    intro hso
    rw [hso] at hsup
    exact absurd (hsup hz) (List.not_mem_nil z)
  obtain ⟨x, xs, hxl⟩ := List.exists_cons_of_ne_nil hsone
  subst hxl
  refine ⟨xs.foldl (fun best y =>
      if hashes.count y > hashes.count best then y else best) x, rfl, ?_, ?_, ?_, ?_⟩
  · exact hsub (pyMax_step_mem (fun h => hashes.count h) xs x)
  · intro h hh
    exact pyMax_step_ge (fun h => hashes.count h) xs x h (hsup hh)
  · exact pyMax_step_first (fun h => hashes.count h) xs x
  · intro hstar hmem hstrict
    refine pyMax_step_strict (fun h => hashes.count h) xs x hstar (hsup hmem) ?_
    intro y hy hyne
    exact hstrict y (hsub hy) hyne

/-- Witness for C1: fingerprints `[A, A, B]` with set order `[B, A]`: `A`
is the strict majority, so it is selected despite iterating after `B`. -/
theorem C1_witness :
    ∃ mc, most_common_hash ["B", "A"] ["A", "A", "B"] = some mc ∧ mc ∈ ["A", "A", "B"] ∧
      (∀ h ∈ ["A", "A", "B"], List.count h ["A", "A", "B"] ≤ List.count mc ["A", "A", "B"]) ∧
      (∃ l1 l2, ["B", "A"] = l1 ++ mc :: l2 ∧
        ∀ y ∈ l1, List.count y ["A", "A", "B"] < List.count mc ["A", "A", "B"]) ∧
      (∀ hstar ∈ ["A", "A", "B"],
        (∀ h ∈ ["A", "A", "B"], h ≠ hstar →
          List.count h ["A", "A", "B"] < List.count hstar ["A", "A", "B"]) →
        mc = hstar) :=
  C1_consensus_majority ["A", "A", "B"] ["B", "A"]
    ⟨by decide, by intro a ha; fin_cases ha <;> simp, by intro a ha; fin_cases ha <;> simp⟩
    (by simp)

/-- C1 counterexample: two answers, first-seen fingerprint `A` then `B` — a
tie — while the set iterates `B` first: the consensus step selects `B`,
not the first-seen `A`, so the first-seen tie-break rule of the claim does
not hold. -/
theorem C1_tie_break_counterexample :
    ValidSetOrder ["B", "A"] ["A", "B"] ∧
    most_common_hash ["B", "A"] ["A", "B"] = some "B" ∧ "B" ≠ "A" :=
  ⟨⟨by decide, by intro a ha; fin_cases ha <;> simp, by intro a ha; fin_cases ha <;> simp⟩,
    by decide, by decide⟩

theorem insertDesc_perm (l : List (Nat × ℚ)) (x : Nat × ℚ) :
    (insertDesc l x).Perm (x :: l) := by
  induction l with
  | nil => exact List.Perm.refl _
  | cons y ys ih =>
    rw [insertDesc]
    by_cases hk : y.2 < x.2
    · rw [if_pos hk]
    · rw [if_neg hk]
      exact (ih.cons y).trans (List.Perm.swap x y ys)

theorem foldl_insertDesc_perm :
    ∀ (l acc : List (Nat × ℚ)), (List.foldl insertDesc acc l).Perm (acc ++ l) := by
  intro l
  induction l with
  | nil => intro acc; simp
  | cons x xs ih =>
    intro acc
    simp only [List.foldl_cons]
    refine ((ih _).trans ?_)
    refine (((insertDesc_perm acc x).append_right xs).trans ?_)
    exact List.perm_middle.symm

theorem sortDesc_perm (l : List (Nat × ℚ)) : (sortDesc l).Perm l := by
  simpa using foldl_insertDesc_perm l []

theorem insertDesc_sorted {l : List (Nat × ℚ)} (x : Nat × ℚ)
    (h : l.Pairwise (fun a b => b.2 ≤ a.2)) :
    (insertDesc l x).Pairwise (fun a b => b.2 ≤ a.2) := by
  induction l with
  | nil => exact List.pairwise_singleton _ _
  | cons y ys ih =>
    rw [insertDesc]
    by_cases hk : y.2 < x.2
    · rw [if_pos hk]
      refine List.Pairwise.cons ?_ h
      intro b hb
      rcases List.mem_cons.mp hb with hb | hb
      · subst hb; exact le_of_lt hk
      · exact le_trans ((List.pairwise_cons.mp h).1 b hb) (le_of_lt hk)
    · rw [if_neg hk]
      refine List.Pairwise.cons ?_ (ih (List.pairwise_cons.mp h).2)
      intro b hb
      rcases (insertDesc_perm ys x).mem_iff.mp hb with hb
      rcases List.mem_cons.mp hb with hb | hb
      · subst hb; exact le_of_not_lt hk
      · exact (List.pairwise_cons.mp h).1 b hb

theorem sortDesc_sorted (l : List (Nat × ℚ)) :
    (sortDesc l).Pairwise (fun a b => b.2 ≤ a.2) := by
  have haux : ∀ (l acc : List (Nat × ℚ)), acc.Pairwise (fun a b => b.2 ≤ a.2) →
      (List.foldl insertDesc acc l).Pairwise (fun a b => b.2 ≤ a.2) := by
    intro l
    induction l with
    | nil => intro acc hacc; exact hacc
    | cons x xs ih =>
      intro acc hacc
      simp only [List.foldl_cons]
      exact ih _ (insertDesc_sorted x hacc)
  exact haux l [] List.Pairwise.nil

theorem pyInt_eq_floor {q : ℚ} (h : 0 ≤ q) : pyInt q = Int.floor q := by
  rw [pyInt, if_neg (not_lt.mpr h)]

/-- C5: `set_weights` keeps at most `max_allowed_weights` workers — the top
of the stable descending sort by score, so every dropped score is at most
every retained score; each submitted weight is
`floor(score * 1000 / sum of retained scores)`; zero weights are removed
from the vote; and for scores `0.9, 0.9, 0.9` with `max_allowed_weights = 2`
exactly the first two workers are retained with weight 500 each, summing
to at most 1000. -/
theorem C5_set_weights_normalization :
    ∀ (score_dict : List (Nat × ℚ)) (maxA : Nat),
      score_dict ≠ [] → 1 ≤ maxA → (∀ p ∈ score_dict, 0 < p.2) →
      (((set_weights score_dict maxA).length ≤ maxA) ∧
       (∀ q ∈ set_weights score_dict maxA, q.2 ≠ 0) ∧
       (sortDesc score_dict).Perm score_dict ∧
       (sortDesc score_dict).Pairwise (fun a b => b.2 ≤ a.2) ∧
       cut_to_max_allowed_weights score_dict maxA = (sortDesc score_dict).take maxA ∧
       (cut_to_max_allowed_weights score_dict maxA).length = min maxA score_dict.length ∧
       0 < ((cut_to_max_allowed_weights score_dict maxA).map (fun p => p.2)).sum ∧
       (∀ p ∈ cut_to_max_allowed_weights score_dict maxA,
          ∀ r ∈ (sortDesc score_dict).drop maxA, r.2 ≤ p.2) ∧
       (∀ q ∈ set_weights score_dict maxA,
          ∃ p ∈ cut_to_max_allowed_weights score_dict maxA, q.1 = p.1 ∧ p ∈ score_dict ∧
            q.2 = Int.floor (p.2 * 1000 /
              ((cut_to_max_allowed_weights score_dict maxA).map (fun p => p.2)).sum))) ∧
      (set_weights [(1, 9/10), (2, 9/10), (3, 9/10)] 2 = [(1, 500), (2, 500)] ∧
       ((set_weights [(1, 9/10), (2, 9/10), (3, 9/10)] 2).map (fun p => p.2)).sum ≤ 1000) := by
  intro score_dict maxA hne hmax hpos
  have hperm := sortDesc_perm score_dict
  have hsorted := sortDesc_sorted score_dict
  have hcut : cut_to_max_allowed_weights score_dict maxA = (sortDesc score_dict).take maxA := rfl
  have hmemcut : ∀ p ∈ cut_to_max_allowed_weights score_dict maxA, p ∈ score_dict := by
    intro p hp
    rw [hcut] at hp
    exact hperm.mem_iff.mp (List.mem_of_mem_take hp)
  have hlen : (cut_to_max_allowed_weights score_dict maxA).length = min maxA score_dict.length := by
    rw [hcut, List.length_take, hperm.length_eq]
  have hcutne : cut_to_max_allowed_weights score_dict maxA ≠ [] := by
    intro hnil
    have := hlen
    rw [hnil] at this
    simp only [List.length_nil] at this
    have h1 : 1 ≤ score_dict.length := List.length_pos.mpr hne
    omega
  have hsum : 0 < ((cut_to_max_allowed_weights score_dict maxA).map (fun p => p.2)).sum := by
    apply List.sum_pos
    · intro q hq
      obtain ⟨p, hp, rfl⟩ := List.mem_map.mp hq
      exact hpos p (hmemcut p hp)
    · intro hnil
      exact hcutne (List.map_eq_nil_iff.mp hnil)
  have hconc : set_weights [(1, 9/10), (2, 9/10), (3, 9/10)] 2 = [(1, 500), (2, 500)] := by
    simp [set_weights, cut_to_max_allowed_weights, sortDesc, insertDesc, pyInt]
    norm_num
  refine ⟨⟨?_, ?_, hperm, hsorted, hcut, hlen, hsum, ?_, ?_⟩, hconc, ?_⟩
  · calc (set_weights score_dict maxA).length
        ≤ ((cut_to_max_allowed_weights score_dict maxA).map (fun p =>
            (p.1, pyInt (p.2 * 1000 /
              ((cut_to_max_allowed_weights score_dict maxA).map (fun p => p.2)).sum)))).length :=
          List.length_filter_le _ _
      _ = (cut_to_max_allowed_weights score_dict maxA).length := List.length_map _ _
      _ = min maxA score_dict.length := hlen
      _ ≤ maxA := Nat.min_le_left _ _
  · intro q hq
    have := List.of_mem_filter hq
    simpa using this
  · intro p hp r hr
    have hsplit := List.take_append_drop maxA (sortDesc score_dict)
    have hpw : ((sortDesc score_dict).take maxA ++
        (sortDesc score_dict).drop maxA).Pairwise (fun a b => b.2 ≤ a.2) := by
      rw [hsplit]; exact hsorted
    rw [hcut] at hp
    exact (List.pairwise_append.mp hpw).2.2 p hp r hr
  · intro q hq
    have hq' := List.mem_of_mem_filter hq
    obtain ⟨p, hp, hqp⟩ := List.mem_map.mp hq'
    refine ⟨p, hp, ?_, hmemcut p hp, ?_⟩
    · rw [← hqp]
    · rw [← hqp]
      exact pyInt_eq_floor (div_nonneg
        (mul_nonneg (le_of_lt (hpos p (hmemcut p hp))) (by norm_num)) (le_of_lt hsum))
  · rw [hconc]
    norm_num

/-- Witness for C5 at scores `0.9, 0.9, 0.9` and `max_allowed_weights = 2`. -/
theorem C5_witness :
    (set_weights [(1, 9/10), (2, 9/10), (3, 9/10)] 2).length ≤ 2 ∧
    set_weights [(1, 9/10), (2, 9/10), (3, 9/10)] 2 = [(1, 500), (2, 500)] ∧
    ((set_weights [(1, 9/10), (2, 9/10), (3, 9/10)] 2).map (fun p => p.2)).sum ≤ 1000 := by
  obtain ⟨⟨h1, _⟩, hconc, hsum⟩ :=
    C5_set_weights_normalization [(1, 9/10), (2, 9/10), (3, 9/10)] 2
      (by simp) (by norm_num) (by intro p hp; fin_cases hp <;> norm_num)
  exact ⟨h1, hconc, hsum⟩

theorem validate_step_checkpoint
    (mk : List (Nat × String)) (vk : String) (uids : List Nat)
    (answers : List (Option Answer)) (so : List String) (o : Oracle)
    (rng : Nat → Nat) (maxA : Nat) (db : DB)
    (hreg : vk ∈ mk.map (fun p => p.2))
    {w : Int × Int} {db1 : DB} (hget : get_time_range db = .ok (w, db1))
    {pairs : List (Nat × Answer)} (hcol : collectNonNull (uids.zip answers) = .ok pairs)
    {mc : String}
    (hmc : most_common_hash so (pairs.map (fun p => p.2.overall_hash)) = some mc)
    {top : Nat × Answer}
    (hhead : (pairs.filter (fun p => p.2.overall_hash == mc)).head? = some top) :
    validate_step mk vk uids answers so o rng maxA db =
      match check_miner_answer o rng top.2.data with
      | .error e => .error e
      | .ok false => .ok (none, db1)
      | .ok true =>
        if (round_scores (pairs.filter (fun p => p.2.overall_hash == mc))).isEmpty
        then .ok (none, db1)
        else .ok (some (set_weights
          (round_scores (pairs.filter (fun p => p.2.overall_hash == mc))) maxA), db1) := by
  simp only [validate_step, if_pos hreg, hget, hcol, hmc, hhead]

theorem validate_step_ok_db
    (mk : List (Nat × String)) (vk : String) (uids : List Nat)
    (answers : List (Option Answer)) (so : List String) (o : Oracle)
    (rng : Nat → Nat) (maxA : Nat) (db : DB) (out : Option (List (Nat × Int)) × DB)
    (h : validate_step mk vk uids answers so o rng maxA db = .ok out) :
    ∃ w, get_time_range db = .ok (w, out.2) := by
  by_cases hreg : vk ∈ mk.map (fun p => p.2)
  · cases hget : get_time_range db with
    | error e =>
      have he : validate_step mk vk uids answers so o rng maxA db = .error e := by
        simp only [validate_step, if_pos hreg, hget]
      rw [he] at h
      exact Except.noConfusion h
    | ok p =>
      obtain ⟨w, db1⟩ := p
      refine ⟨w, ?_⟩
      cases hcol : collectNonNull (uids.zip answers) with
      | error e =>
        have he : validate_step mk vk uids answers so o rng maxA db = .error e := by
          simp only [validate_step, if_pos hreg, hget, hcol]
        rw [he] at h
        exact Except.noConfusion h
      | ok pairs =>
        cases hmc : most_common_hash so (pairs.map (fun p => p.2.overall_hash)) with
        | none =>
          have he : validate_step mk vk uids answers so o rng maxA db =
              .error "ValueError: max arg is an empty sequence" := by
            simp only [validate_step, if_pos hreg, hget, hcol, hmc]
          rw [he] at h
          exact Except.noConfusion h
        | some mc =>
          cases hhead : (pairs.filter (fun p => p.2.overall_hash == mc)).head? with
          | none =>
            have he : validate_step mk vk uids answers so o rng maxA db =
                .error "IndexError: list index out of range" := by
              simp only [validate_step, if_pos hreg, hget, hcol, hmc, hhead]
            rw [he] at h
            exact Except.noConfusion h
          | some top =>
            have hstep := validate_step_checkpoint mk vk uids answers so o rng maxA db
              hreg hget hcol hmc hhead
            rw [hstep] at h
            cases hchk : check_miner_answer o rng top.2.data with
            | error e =>
              rw [hchk] at h
              exact Except.noConfusion h
            | ok b =>
              rw [hchk] at h
              cases b with
              | false =>
                simp only [Except.ok.injEq] at h
                subst h
                rfl
              | true =>
                by_cases hemp : (round_scores (pairs.filter
                    (fun p => p.2.overall_hash == mc))).isEmpty = true
                · rw [if_pos hemp] at h
                  simp only [Except.ok.injEq] at h
                  subst h
                  rfl
                · rw [if_neg hemp] at h
                  simp only [Except.ok.injEq] at h
                  subst h
                  rfl
  · have he : validate_step mk vk uids answers so o rng maxA db =
        .error "RuntimeError: validator key is not registered in subnet" := by
      simp only [validate_step, if_neg hreg]
    rw [he] at h
    exact Except.noConfusion h

theorem get_time_range_ok_db :
    ∀ (db : DB) (w : Int × Int) (db1 : DB), get_time_range db = .ok (w, db1) →
      db1.tokenPairs = db.tokenPairs ∧ db1.poolData = db.poolData ∧
      db1.timetable.filter (fun r => r.completed) =
        db.timetable.filter (fun r => r.completed) := by
  intro db w db1 h
  unfold get_time_range at h
  cases hinc : fetch_incompleted_time_range db with
  | nil =>
    rw [hinc] at h
    cases hlast : fetch_last_time_range db with
    | none =>
      rw [hlast] at h
      exact Except.noConfusion h
    | some last =>
      rw [hlast] at h
      simp only [Except.ok.injEq, Prod.mk.injEq] at h
      obtain ⟨hw, hdb⟩ := h
      subst hdb
      refine ⟨rfl, rfl, ?_⟩
      simp [add_timetable_entry, List.filter_append]
  | cons r t =>
    rw [hinc] at h
    simp only [Except.ok.injEq, Prod.mk.injEq] at h
    obtain ⟨hw, hdb⟩ := h
    subst hdb
    exact ⟨rfl, rfl, rfl⟩

theorem collectNonNull_none_error :
    ∀ pairs : List (Nat × Option Answer), (∃ p ∈ pairs, p.2 = none) →
      collectNonNull pairs = .error "TypeError: NoneType object is not subscriptable" := by
  intro pairs
  induction pairs with
  | nil =>
    intro ⟨p, hp, _⟩
    cases hp
  | cons q rest ih =>
    intro ⟨p, hp, hnone⟩
    rcases q with ⟨u, a⟩
    cases a with
    | none => rfl
    | some x =>
      rcases List.mem_cons.mp hp with hp | hp
      · subst hp
        exact Option.noConfusion hnone
      · have hr := ih ⟨p, hp, hnone⟩
        simp only [collectNonNull, hr]

theorem most_common_hash_mem :
    ∀ (hashes so : List String), ValidSetOrder so hashes → hashes ≠ [] →
      ∃ mc, most_common_hash so hashes = some mc ∧ mc ∈ hashes := by
  intro hashes so hvalid hne
  obtain ⟨hnodup, hsub, hsup⟩ := hvalid
  have hsone : so ≠ [] := by
    obtain ⟨z, hz⟩ := List.exists_mem_of_ne_nil hashes hne
    intro hso
    rw [hso] at hsup
    exact absurd (hsup hz) (List.not_mem_nil z)
  obtain ⟨x, xs, rfl⟩ := List.exists_cons_of_ne_nil hsone
  exact ⟨_, rfl, hsub (pyMax_step_mem (fun h => hashes.count h) xs x)⟩

/-- C2: contrary to the claim, a null answer in the collected response set
aborts the round with an exception: the fingerprint extraction subscripts
the `None` answer before any filtering, so the surviving non-null workers
never reach consensus, verification or a vote. -/
theorem C2_null_answer_crashes_round :
    collectNonNull [(0, some ⟨"A", [⟨some 5, "h5"⟩]⟩), (1, none)] =
      .error "TypeError: NoneType object is not subscriptable" ∧
    validate_step [(0, "k"), (1, "k1")] "k" [0, 1]
        [some ⟨"A", [⟨some 5, "h5"⟩]⟩, none] ["A"] ⟨0, 10, fun _ => "h5"⟩ (fun _ => 0) 420
        ⟨[⟨0, 1, false⟩], [], []⟩ =
      .error "TypeError: NoneType object is not subscriptable" := by
  constructor
  · rfl
  · simp [validate_step, get_time_range, fetch_incompleted_time_range, collectNonNull]

/-- C7: contrary to the claim, after `validate_step` submits a vote it
marks nothing complete and archives nothing: the token-pair tables and the
result archive are exactly as before the round, and no timetable row gains
a completed flag (the only ledger write of a round is the incomplete
window `get_time_range` may create).  `mark_time_range_as_complete`,
`mark_token_pair_as_complete` and the pool-data insertion exist in the
store layer but are never invoked by the round. -/
theorem C7_no_completion_no_archive :
    ∀ (mk : List (Nat × String)) (vk : String) (uids : List Nat)
      (answers : List (Option Answer)) (so : List String) (o : Oracle)
      (rng : Nat → Nat) (maxA : Nat) (db : DB) (v : List (Nat × Int)) (db2 : DB),
      validate_step mk vk uids answers so o rng maxA db = .ok (some v, db2) →
      db2.tokenPairs = db.tokenPairs ∧ db2.poolData = db.poolData ∧
      db2.timetable.filter (fun r => r.completed) =
        db.timetable.filter (fun r => r.completed) := by
  intro mk vk uids answers so o rng maxA db v db2 h
  obtain ⟨w, hget⟩ := validate_step_ok_db mk vk uids answers so o rng maxA db (some v, db2) h
  exact get_time_range_ok_db db w db2 hget

/-- Witness for C7: a concrete round that verifies and submits the vote
`[(0, 1000)]`, after which the completed-row set of the ledger is
unchanged. -/
theorem C7_witness :
    validate_step [(0, "k")] "k" [0] [some ⟨"A", [⟨some 5, "h5"⟩]⟩] ["A"]
        ⟨0, 10, fun _ => "h5"⟩ (fun _ => 0) 420 ⟨[⟨0, 1, false⟩], [], []⟩ =
      .ok (some [(0, 1000)], ⟨[⟨0, 1, false⟩], [], []⟩) ∧
    ((⟨[⟨0, 1, false⟩], [], []⟩ : DB).timetable.filter (fun r => r.completed) =
      (⟨[⟨0, 1, false⟩], [], []⟩ : DB).timetable.filter (fun r => r.completed)) := by
  have hrun : validate_step [(0, "k")] "k" [0] [some ⟨"A", [⟨some 5, "h5"⟩]⟩] ["A"]
      ⟨0, 10, fun _ => "h5"⟩ (fun _ => 0) 420 ⟨[⟨0, 1, false⟩], [], []⟩ =
      .ok (some [(0, 1000)], ⟨[⟨0, 1, false⟩], [], []⟩) := by
    simp [validate_step, get_time_range, fetch_incompleted_time_range, collectNonNull,
      most_common_hash, pyMax, check_miner_answer, ANSWER_CHECK_COUNT, recordPasses,
      round_scores, score_miner, set_weights, cut_to_max_allowed_weights, sortDesc,
      insertDesc, pyInt, List.range_succ]
    norm_num
  exact ⟨hrun, (C7_no_completion_no_archive [(0, "k")] "k" [0]
    [some ⟨"A", [⟨some 5, "h5"⟩]⟩] ["A"] ⟨0, 10, fun _ => "h5"⟩ (fun _ => 0) 420
    ⟨[⟨0, 1, false⟩], [], []⟩ [(0, 1000)] ⟨[⟨0, 1, false⟩], [], []⟩ hrun).2.2⟩

/-- C6: the verifier draws exactly `ANSWER_CHECK_COUNT = 10` records from
the accepted answer's data list (with replacement — each draw is an
independent choice from the list), fails if any sampled record has a
missing block number, a block number outside the oracle's range, or a hash
differing from the oracle's, succeeds only when all ten pass, and a failed
check makes `validate_step` end the round with no vote. -/
theorem C6_verifier_samples_and_rejects :
    ∀ (o : Oracle) (rng : Nat → Nat) (data : List BlockRecord), data ≠ [] →
      (ANSWER_CHECK_COUNT = 10 ∧
       (∀ b : BlockRecord, recordPasses o b = true ↔
         ∃ n, b.block_number = some n ∧ o.block_start ≤ n ∧ n ≤ o.block_stop ∧
           o.hash_of n = b.hash) ∧
       ∃ samples : List BlockRecord,
         samples = (List.range ANSWER_CHECK_COUNT).map
           (fun k => data.getD (rng k % data.length) ⟨none, ""⟩) ∧
         samples.length = ANSWER_CHECK_COUNT ∧ (∀ b ∈ samples, b ∈ data) ∧
         (check_miner_answer o rng data = .ok true ↔
           ∀ b ∈ samples, recordPasses o b = true) ∧
         (check_miner_answer o rng data = .ok false ↔
           ∃ b ∈ samples, recordPasses o b = false)) ∧
      (∀ (mk : List (Nat × String)) (vk : String) (uids : List Nat)
        (answers : List (Option Answer)) (so : List String) (maxA : Nat) (db : DB)
        (w : Int × Int) (db1 : DB) (pairs : List (Nat × Answer)) (mc : String)
        (top : Nat × Answer),
        vk ∈ mk.map (fun p => p.2) →
        get_time_range db = .ok (w, db1) →
        collectNonNull (uids.zip answers) = .ok pairs →
        most_common_hash so (pairs.map (fun p => p.2.overall_hash)) = some mc →
        (pairs.filter (fun p => p.2.overall_hash == mc)).head? = some top →
        check_miner_answer o rng top.2.data = .ok false →
        validate_step mk vk uids answers so o rng maxA db = .ok (none, db1)) := by
  intro o rng data hne
  have hlenpos : 0 < data.length := List.length_pos.mpr hne
  have hnotempty : ¬(data.isEmpty = true) := by
    simp [List.isEmpty_iff, hne]
  refine ⟨⟨rfl, ?_, ?_⟩, ?_⟩
  · intro b
    cases hb : b.block_number with
    | none => simp [recordPasses, hb]
    | some n =>
      simp only [recordPasses, hb, Bool.and_eq_true, Bool.not_eq_eq_eq_not, Bool.not_true,
        Bool.or_eq_false_iff, decide_eq_false_iff_not, not_lt, beq_iff_eq,
        Option.some.injEq]
      constructor
      · intro ⟨⟨h1, h2⟩, h3⟩
        exact ⟨n, rfl, h1, h2, h3⟩
      · intro ⟨m, hm, h1, h2, h3⟩
        cases hm
        exact ⟨⟨h1, h2⟩, h3⟩
  · refine ⟨(List.range ANSWER_CHECK_COUNT).map
      (fun k => data.getD (rng k % data.length) ⟨none, ""⟩), rfl, ?_, ?_, ?_, ?_⟩
    · rw [List.length_map, List.length_range]
    · intro b hb
      obtain ⟨k, _, rfl⟩ := List.mem_map.mp hb
      have hlt : rng k % data.length < data.length := Nat.mod_lt _ hlenpos
      rw [List.getD_eq_getElem data _ hlt]
      exact List.getElem_mem hlt
    · rw [check_miner_answer, if_neg hnotempty]
      simp only [Except.ok.injEq]
      rw [List.all_eq_true]
      constructor
      · intro hall b hb
        obtain ⟨k, hk, rfl⟩ := List.mem_map.mp hb
        exact hall k hk
      · intro hall k hk
        exact hall _ (List.mem_map_of_mem _ hk)
    · rw [check_miner_answer, if_neg hnotempty]
      simp only [Except.ok.injEq]
      rw [List.all_eq_false]
      constructor
      · intro ⟨k, hk, hfail⟩
        exact ⟨_, List.mem_map_of_mem _ hk, by simpa using hfail⟩
      · intro ⟨b, hb, hfail⟩
        obtain ⟨k, hk, rfl⟩ := List.mem_map.mp hb
        exact ⟨k, hk, by simpa using hfail⟩
  · intro mk vk uids answers so maxA db w db1 pairs mc top hreg hget hcol hmc hhead hchk
    rw [validate_step_checkpoint mk vk uids answers so o rng maxA db
      hreg hget hcol hmc hhead, hchk]

/-- Witness for C6: a one-record data list whose record passes every check
makes the verifier return `ok true`. -/
theorem C6_witness :
    ANSWER_CHECK_COUNT = 10 ∧
    check_miner_answer ⟨0, 10, fun _ => "h"⟩ (fun _ => 0) [⟨some 5, "h"⟩] = .ok true := by
  obtain ⟨⟨hc, _, samples, hs, _, _, hiff, _⟩, _⟩ :=
    C6_verifier_samples_and_rejects ⟨0, 10, fun _ => "h"⟩ (fun _ => 0) [⟨some 5, "h"⟩]
      (by simp)
  refine ⟨hc, hiff.mpr ?_⟩
  intro b hb
  rw [hs] at hb
  obtain ⟨k, _, rfl⟩ := List.mem_map.mp hb
  decide

/-- C8 counterexample: an input the claim covers — an unregistered
validator key — makes `validate_step` raise `RuntimeError` instead of
returning normally. -/
theorem C8_unregistered_key_counterexample :
    validate_step [(0, "worker-key")] "validator-key" [0]
        [some ⟨"A", [⟨some 5, "h5"⟩]⟩] ["A"] ⟨0, 10, fun _ => "h5"⟩ (fun _ => 0) 420
        ⟨[⟨0, 1, false⟩], [], []⟩ =
      .error "RuntimeError: validator key is not registered in subnet" := by
  simp [validate_step]

/-- C8 (amended): `validate_step` raises rather than returns on an
unregistered validator key (the spec's startup-fatal case) and on a null
answer in the collected set, and `validation_loop` installs no handler for
either; but once the collected state of a round is well-formed — non-null
answers collected into a nonempty list, a set order enumerating the
fingerprints, nonempty data lists — the round always returns normally,
whatever the verification or scoring outcome. -/
theorem C8_step_raises_or_returns :
    ∀ (mk : List (Nat × String)) (vk : String) (uids : List Nat)
      (answers : List (Option Answer)) (so : List String) (o : Oracle)
      (rng : Nat → Nat) (maxA : Nat) (db : DB),
      ((vk ∉ mk.map (fun p => p.2)) →
        validate_step mk vk uids answers so o rng maxA db =
          .error "RuntimeError: validator key is not registered in subnet") ∧
      (∀ (w : Int × Int) (db1 : DB), vk ∈ mk.map (fun p => p.2) →
        get_time_range db = .ok (w, db1) →
        (∃ p ∈ uids.zip answers, p.2 = none) →
        validate_step mk vk uids answers so o rng maxA db =
          .error "TypeError: NoneType object is not subscriptable") ∧
      (∀ (w : Int × Int) (db1 : DB) (pairs : List (Nat × Answer)),
        vk ∈ mk.map (fun p => p.2) →
        get_time_range db = .ok (w, db1) →
        collectNonNull (uids.zip answers) = .ok pairs →
        pairs ≠ [] →
        ValidSetOrder so (pairs.map (fun p => p.2.overall_hash)) →
        (∀ p ∈ pairs, p.2.data ≠ []) →
        ∃ res, validate_step mk vk uids answers so o rng maxA db = .ok res) := by
  intro mk vk uids answers so o rng maxA db
  refine ⟨?_, ?_, ?_⟩
  · intro hreg
    simp only [validate_step, if_neg hreg]
  · intro w db1 hreg hget hnone
    simp only [validate_step, if_pos hreg, hget, collectNonNull_none_error _ hnone]
  · intro w db1 pairs hreg hget hcol hpairs hvalid hdat
    have hashesne : pairs.map (fun p => p.2.overall_hash) ≠ [] := by
      intro hm
      exact hpairs (List.map_eq_nil_iff.mp hm)
    obtain ⟨mc, hmc, hmem⟩ :=
      most_common_hash_mem (pairs.map (fun p => p.2.overall_hash)) so hvalid hashesne
    obtain ⟨p0, hp0, hhash⟩ := List.mem_map.mp hmem
    have hp0f : p0 ∈ pairs.filter (fun p => p.2.overall_hash == mc) :=
      List.mem_filter.mpr ⟨hp0, by simp [hhash]⟩
    have hfilne : pairs.filter (fun p => p.2.overall_hash == mc) ≠ [] :=
      List.ne_nil_of_mem hp0f
    have hhead := List.head?_eq_head hfilne
    have htopmem : (pairs.filter (fun p => p.2.overall_hash == mc)).head hfilne ∈
        pairs.filter (fun p => p.2.overall_hash == mc) := List.head_mem hfilne
    have htop_pairs := (List.mem_filter.mp htopmem).1
    have hdata : ((pairs.filter (fun p => p.2.overall_hash == mc)).head hfilne).2.data ≠ [] :=
      hdat _ htop_pairs
    have hdne : ¬((((pairs.filter (fun p => p.2.overall_hash == mc)).head
        hfilne).2.data).isEmpty = true) :=
      fun hie => hdata (List.isEmpty_iff.mp hie)
    rw [validate_step_checkpoint mk vk uids answers so o rng maxA db
      hreg hget hcol hmc hhead]
    rw [check_miner_answer, if_neg hdne]
    cases hb : (List.range ANSWER_CHECK_COUNT).all (fun k => recordPasses o
        ((((pairs.filter (fun p => p.2.overall_hash == mc)).head hfilne).2.data).getD
          (rng k % (((pairs.filter (fun p => p.2.overall_hash == mc)).head
            hfilne).2.data).length) ⟨none, ""⟩)) with
    | false => exact ⟨(none, db1), rfl⟩
    | true =>
      have hscorene : ¬((round_scores (pairs.filter
          (fun p => p.2.overall_hash == mc))).isEmpty = true) := by
        simp only [round_scores, List.isEmpty_iff, List.map_eq_nil_iff]
        exact hfilne
      rw [if_neg hscorene]
      exact ⟨_, rfl⟩

/-- Witness for C8: a registered validator, one non-null answer whose data
fails verification (oracle hash mismatch): the round returns normally. -/
theorem C8_witness :
    ∃ res, validate_step [(0, "k")] "k" [0] [some ⟨"A", [⟨some 5, "h5"⟩]⟩] ["A"]
        ⟨0, 10, fun _ => "bad"⟩ (fun _ => 0) 420 ⟨[⟨0, 1, false⟩], [], []⟩ = .ok res := by
  obtain ⟨_, _, h3⟩ := C8_step_raises_or_returns [(0, "k")] "k" [0]
    [some ⟨"A", [⟨some 5, "h5"⟩]⟩] ["A"] ⟨0, 10, fun _ => "bad"⟩ (fun _ => 0) 420
    ⟨[⟨0, 1, false⟩], [], []⟩
  exact h3 (0, 1) ⟨[⟨0, 1, false⟩], [], []⟩ [(0, ⟨"A", [⟨some 5, "h5"⟩]⟩)]
    (by simp) rfl rfl (by simp)
    ⟨by decide, fun x hx => hx, fun x hx => hx⟩
    (by intro p hp; simp at hp; subst hp; simp)

theorem cut_sum_pos (score_dict : List (Nat × ℚ)) (maxA : Nat)
    (hne : score_dict ≠ []) (hmax : 1 ≤ maxA) (hpos : ∀ p ∈ score_dict, 0 < p.2) :
    0 < ((cut_to_max_allowed_weights score_dict maxA).map (fun p => p.2)).sum := by
  have hperm := sortDesc_perm score_dict
  have hmemcut : ∀ p ∈ cut_to_max_allowed_weights score_dict maxA, p ∈ score_dict := by
    intro p hp
    exact hperm.mem_iff.mp (List.mem_of_mem_take hp)
  have hlen : (cut_to_max_allowed_weights score_dict maxA).length =
      min maxA score_dict.length := by
    rw [cut_to_max_allowed_weights, List.length_take, hperm.length_eq]
  have hcutne : cut_to_max_allowed_weights score_dict maxA ≠ [] := by
    intro hnil
    rw [hnil] at hlen
    simp only [List.length_nil] at hlen
    have h1 : 1 ≤ score_dict.length := List.length_pos.mpr hne
    omega
  apply List.sum_pos
  · intro q hq
    obtain ⟨p, hp, rfl⟩ := List.mem_map.mp hq
    exact hpos p (hmemcut p hp)
  · intro hnil
    exact hcutne (List.map_eq_nil_iff.mp hnil)

/-- C10: `_score_miner` returns only 0 or 0.9, the scoring loop of
`validate_step` skips falsy answers and therefore inserts exactly 0.9 for
every surviving worker, so the `assert score <= 1` always holds; and when
`set_weights` receives a nonempty score dict (with at least one weight
allowed) the normalizing divisor — the sum of the retained scores — is
strictly positive, so no division by zero occurs. -/
theorem C10_scores_constant :
    (∀ a : Option Answer, score_miner a = 0 ∨ score_miner a = 9 / 10) ∧
    (∀ results : List (Nat × Answer), ∀ p ∈ round_scores results,
      p.2 = 9 / 10 ∧ p.2 ≤ 1) ∧
    (∀ (score_dict : List (Nat × ℚ)) (maxA : Nat),
      score_dict ≠ [] → 1 ≤ maxA → (∀ p ∈ score_dict, p.2 = 9 / 10) →
      0 < ((cut_to_max_allowed_weights score_dict maxA).map (fun p => p.2)).sum) := by
  refine ⟨?_, ?_, ?_⟩
  · intro a
    cases a with
    | none => exact Or.inl rfl
    | some x => exact Or.inr rfl
  · intro results p hp
    obtain ⟨q, _, rfl⟩ := List.mem_map.mp hp
    refine ⟨rfl, ?_⟩
    show score_miner (some q.2) ≤ 1
    rw [score_miner]
    norm_num
  · intro score_dict maxA hne hmax hval
    exact cut_sum_pos score_dict maxA hne hmax (fun p hp => by rw [hval p hp]; norm_num)

/-- Witness for C10: a singleton score dict `(7, 0.9)` with the default
420 allowed weights has a positive divisor, and a one-survivor round
scores exactly 0.9. -/
theorem C10_witness :
    (∀ p ∈ round_scores [(7, ⟨"A", []⟩)], p.2 = 9 / 10 ∧ p.2 ≤ 1) ∧
    0 < ((cut_to_max_allowed_weights [(7, 9 / 10)] 420).map (fun p => p.2)).sum := by
  obtain ⟨_, h2, h3⟩ := C10_scores_constant
  exact ⟨fun p hp => h2 _ p hp,
    h3 [(7, 9 / 10)] 420 (by simp) (by norm_num)
      (by intro p hp; simp at hp; rw [hp])⟩
